import Mathlib

/-!
# Audit views of the web-building front end

A shallow embedding of the two AngularJS sources

* `src/main/webapp/app/user/audit/service.js` (the `auditService` factory), and
* `src/main/webapp/app/roleAuthCfg/audit/ctrl.js` (the two role audit controllers),

followed by the properties proved about them.

JavaScript values are modelled by the small scalar type `JsValue`; an object
used as query parameters is the list of its own properties in the order in
which JavaScript enumerates them, and `objectLiteral` builds that list from
the properties in the order in which they were written.
The injected collaborators (`$http`, `util`, `roleAuthCfgService`) are
arguments of the embedded functions, exactly as they are arguments of the
factory functions in the source.  A `throw` is an `Except.error`, and the
requests handed to the transport are recorded in an explicit log.
-/

set_option autoImplicit false

namespace WebBuilding

/-! ## JavaScript values -/

/-- Scalar JavaScript values that a query field or an argument can hold:
`undefined` (also what reading an absent field gives), a string, an
integer-valued number, or the number `NaN`.  Fractional and infinite numbers
are not modelled; they are truthy like every non-zero integer.  Where the
decimal form of a number matters, `num n` stands for a safe integer (see
`JsValue.isSafe`). -/
inductive JsValue where
  | undefined
  | str (s : String)
  | num (n : Int)
  | nan
  deriving DecidableEq, Repr

namespace JsValue

/-- JavaScript `ToBoolean`, the test applied by `!v`, `a || b` and `c ? x : y`:
`undefined`, the empty string, `0` and `NaN` are falsy, everything else is
truthy. -/
def toBoolean : JsValue → Bool
  | undefined => false
  | str s => !(s == "")
  | num n => !(n == 0)
  | nan => false

/-- JavaScript `String(v)` on scalars; for `num n` this is the decimal
numeral, which is what `String` gives for every safe integer. -/
def toJsString : JsValue → String
  | undefined => "undefined"
  | str s => s
  | num n => toString n
  | nan => "NaN"

end JsValue

/-- A query-parameter object as code sees it: its own properties, names with
values, in property enumeration order (the order of `for ... in` and
`Object.keys`), each name at most once in an object built by
`objectLiteral`. -/
abbrev QueryParams := List (String × JsValue)

/-- Property read `params.field`: the stored value, `undefined` when the
field is absent. -/
def QueryParams.get (params : QueryParams) (field : String) : JsValue :=
  match params.lookup field with
  | some v => v
  | none => JsValue.undefined

/-- Errors raised by a `throw` statement. -/
inductive JsError where
  | ReferenceError (message : String)
  deriving DecidableEq, Repr

/-! ## Objects and the order of their properties -/

/-- The number that a string of decimal digits denotes. -/
def decimalValue (digits : List Char) : Nat :=
  digits.foldl (fun n c => 10 * n + (c.toNat - 48)) 0

/-- The number a property name denotes when it is an array index. -/
def arrayIndex (key : String) : Nat :=
  decimalValue key.data

/-- ECMAScript array index: a property name that is the canonical decimal
numeral of an integer from `0` to `2^32 - 2`. -/
def isArrayIndex (key : String) : Bool :=
  decide (arrayIndex key < 4294967295) && (toString (arrayIndex key) == key)

/-- Where a new array-index property goes: after the array indices below it,
before everything else. -/
def insertIndex (key : String) (value : JsValue) : QueryParams → QueryParams
  | [] => [(key, value)]
  | (k, v) :: rest =>
    if isArrayIndex k && decide (arrayIndex k < arrayIndex key) then
      (k, v) :: insertIndex key value rest
    else (key, value) :: (k, v) :: rest

/-- The assignment `obj[key] = value`, also one `key : value` of an object
literal: an existing property keeps its place and takes the new value, a new
array index goes among the array indices in ascending order, and any other
new name goes last. -/
def defineProperty (obj : QueryParams) (key : String) (value : JsValue) : QueryParams :=
  if obj.any (fun kv => kv.1 == key) then
    obj.map (fun kv => if kv.1 == key then (kv.1, value) else kv)
  else if isArrayIndex key then insertIndex key value obj
  else obj ++ [(key, value)]

/-- The object that the literal `{k1 : v1, k2 : v2, ...}` creates, from its
properties in the order in which they are written. -/
def objectLiteral (entries : List (String × JsValue)) : QueryParams :=
  entries.foldl (fun obj kv => defineProperty obj kv.1 kv.2) []

/-! ## Injected collaborators -/

/-- The `$http` transport.  `get requests url` is the asynchronous result (the
promise) that the transport hands back for a GET of `url` issued after the
requests in `requests`; the type `ρ` of such results is left open, so it can
hold successes as well as failures. -/
structure Http (ρ : Type) where
  get : List String → String → ρ

/-- The injected `util` helper, of which the service uses `encodeUrlParams`. -/
structure Util where
  encodeUrlParams : QueryParams → String

/-- What a service call leaves behind: the value it returned (or the error it
threw) and the URLs of all GET requests issued so far, oldest first. -/
structure Outcome (ρ : Type) where
  result : Except JsError ρ
  requests : List String

/-- The call `$http.get(url)`: one more request in the log, and the transport's
asynchronous result for it as the value. -/
def httpGet {ρ : Type} (http : Http ρ) (url : String) (requests : List String) : Outcome ρ :=
  { result := Except.ok (http.get requests url), requests := requests ++ [url] }

/-! ## The query encoder (`util.encodeUrlParams`, source absent) -/

/-- Upper-case hexadecimal digit of a value below sixteen. -/
def hexDigit (n : Nat) : Char :=
  "0123456789ABCDEF".data.getD n '0'

/-- The UTF-8 bytes of a code point. -/
def utf8Bytes (c : Nat) : List Nat :=
  if c < 0x80 then [c]
  else if c < 0x800 then [0xC0 + c / 64, 0x80 + c % 64]
  else if c < 0x10000 then [0xE0 + c / 4096, 0x80 + c / 64 % 64, 0x80 + c % 64]
  else [0xF0 + c / 262144, 0x80 + c / 4096 % 64, 0x80 + c / 64 % 64, 0x80 + c % 64]

/-- The characters that URL component encoding leaves as they are: ASCII
letters, digits and `- _ . ! ~ * ' ( )`. -/
def isUnreserved (c : Char) : Bool :=
  c.isAlphanum || "-_.!~*'()".data.contains c

/-- Percent-encoding of one character: itself when unreserved, else `%XX` for
each of its UTF-8 bytes. -/
def percentEncode (c : Char) : List Char :=
  if isUnreserved c then [c]
  else (utf8Bytes c.toNat).flatMap (fun b => ['%', hexDigit (b / 16), hexDigit (b % 16)])

/-- Modelled from the spec: the percent-encoding that the absent
`util.encodeUrlParams` applies to a value, "standard URL component encoding"
(`encodeURIComponent`).  A string here is a sequence of Unicode scalar values,
on which that encoding is total. -/
def encodeURIComponent (s : String) : String :=
  String.mk (s.data.flatMap percentEncode)

/-- Modelled from the spec: the loop of the absent `util.encodeUrlParams`,
"for each key in insertion order, if the associated value is not
empty/undefined, append `key=encodedValue`".  The loop runs over the
properties of the object it is given, in the one order in which JavaScript
hands them out. -/
def encodeFields : QueryParams → List String
  | [] => []
  | (key, value) :: rest =>
    if value = JsValue.undefined ∨ value = JsValue.str "" then encodeFields rest
    else (key ++ "=" ++ encodeURIComponent value.toJsString) :: encodeFields rest

/-- Modelled from the spec: `util.encodeUrlParams` of `common/context`, whose
source is absent.  The fields kept by `encodeFields` are "joined with `&`"; the
result is the empty string when no field is kept. -/
def encodeUrlParams (params : QueryParams) : String :=
  "&".intercalate (encodeFields params)

/-- The `util` object whose `encodeUrlParams` is the encoder described by the
spec. -/
def specUtil : Util := { encodeUrlParams := encodeUrlParams }

/-! ## What the encoder is measured against -/

/-- The characters that ECMAScript `encodeURIComponent` leaves unescaped:
`uriAlpha`, `DecimalDigit` and `uriMark`. -/
def unreservedChars : List Char :=
  "ABCDEFGHIJKLMNOPQRSTUVWXYZabcdefghijklmnopqrstuvwxyz0123456789-_.!~*'()".data

/-- ECMAScript `Encode` for one character, written with the UTF-8 encoder and
the digit characters of the Lean library: an unescaped character is kept, any
other becomes `%XX`, two upper-case hexadecimal digits, for each octet of its
UTF-8 encoding. -/
def percentEncodeRef (c : Char) : List Char :=
  if c ∈ unreservedChars then [c]
  else (String.utf8EncodeChar c).flatMap (fun b =>
    ['%', (Nat.digitChar (b.toNat / 16)).toUpper, (Nat.digitChar (b.toNat % 16)).toUpper])

/-- ECMAScript `encodeURIComponent` on a string of Unicode scalar values, as
the reference for `encodeURIComponent` above. -/
def encodeURIComponentRef (s : String) : String :=
  String.mk (s.data.flatMap percentEncodeRef)

/-- Value of an upper-case hexadecimal digit. -/
def hexValue (c : Char) : Option Nat :=
  if 48 ≤ c.toNat ∧ c.toNat ≤ 57 then some (c.toNat - 48)
  else if 65 ≤ c.toNat ∧ c.toNat ≤ 70 then some (c.toNat - 55)
  else none

/-- The octets that a percent-encoded text stands for: `%XX` is the octet
`XX`, an unescaped character is its own code, anything else is malformed. -/
def percentDecode : List Char → Option (List Nat)
  | [] => some []
  | c :: rest =>
    if c = '%' then
      match rest with
      | h :: l :: rest2 =>
        match hexValue h, hexValue l, percentDecode rest2 with
        | some a, some b, some bytes => some ((16 * a + b) :: bytes)
        | _, _, _ => none
      | _ => none
    else if isUnreserved c then
      match percentDecode rest with
      | some bytes => some (c.toNat :: bytes)
      | none => none
    else none

/-- The first character of a UTF-8 octet sequence and the octets after it. -/
def utf8DecodeChar : List Nat → Option (Char × List Nat)
  | [] => none
  | b0 :: rest =>
    if b0 < 0x80 then some (Char.ofNat b0, rest)
    else if b0 < 0xC0 then none
    else if b0 < 0xE0 then
      match rest with
      | b1 :: rest1 => some (Char.ofNat ((b0 - 0xC0) * 64 + (b1 - 0x80)), rest1)
      | _ => none
    else if b0 < 0xF0 then
      match rest with
      | b1 :: b2 :: rest2 =>
        some (Char.ofNat ((b0 - 0xE0) * 4096 + (b1 - 0x80) * 64 + (b2 - 0x80)), rest2)
      | _ => none
    else
      match rest with
      | b1 :: b2 :: b3 :: rest3 =>
        some (Char.ofNat ((b0 - 0xF0) * 262144 + (b1 - 0x80) * 4096 + (b2 - 0x80) * 64
          + (b3 - 0x80)), rest3)
      | _ => none

/-- UTF-8 decoding of an octet sequence, at most `fuel` characters. -/
def utf8DecodeAux : Nat → List Nat → Option (List Char)
  | _, [] => some []
  | 0, _ :: _ => none
  | fuel + 1, b :: bytes =>
    match utf8DecodeChar (b :: bytes) with
    | some (c, rest) =>
      match utf8DecodeAux fuel rest with
      | some cs => some (c :: cs)
      | none => none
    | none => none

/-- UTF-8 decoding of an octet sequence; a character takes at least one octet,
so the number of octets is fuel enough. -/
def utf8Decode (bytes : List Nat) : Option (List Char) :=
  utf8DecodeAux bytes.length bytes

/-- The string that a percent-encoded text stands for (`decodeURIComponent`
on the output alphabet of `encodeURIComponent`). -/
def decodeURIComponent (s : String) : Option String :=
  match percentDecode s.data with
  | some bytes =>
    match utf8Decode bytes with
    | some cs => some (String.mk cs)
    | none => none
  | none => none

/-! ## `auditService` (user/audit/service.js) -/

namespace auditService

/-- Source:
```
userRevision : function(params) {
  var args = util.encodeUrlParams(params);
  return $http.get('audited/userRevision' + (args ? '?' + args : ''));
}
``` -/
def userRevision {ρ : Type} (http : Http ρ) (util : Util) (params : QueryParams)
    (requests : List String) : Outcome ρ :=
  let args := util.encodeUrlParams params
  httpGet http
    ("audited/userRevision" ++ (if (JsValue.str args).toBoolean then "?" ++ args else ""))
    requests

/-- Source:
```
usersAtRevision : function(params) {
  if (!params.revision) {
    throw new ReferenceError('修订版本号revision为空');
  }
  return $http.get('audited/usersAtRevision?' + util.encodeUrlParams(params));
}
``` -/
def usersAtRevision {ρ : Type} (http : Http ρ) (util : Util) (params : QueryParams)
    (requests : List String) : Outcome ρ :=
  if !(params.get "revision").toBoolean then
    { result := Except.error (JsError.ReferenceError "修订版本号revision为空"),
      requests := requests }
  else
    httpGet http ("audited/usersAtRevision?" ++ util.encodeUrlParams params) requests

/-- Source:
```
userAtRevision : function(userId, revision) {
  if (!userId || !revision) {
    throw new ReferenceError('用户Id和修订版本号revision都不能为空');
  }
  var params = { userId : userId, revision : revision };
  return $http.get('audited/userAtRevision?' + util.encodeUrlParams(params));
}
``` -/
def userAtRevision {ρ : Type} (http : Http ρ) (util : Util) (userId revision : JsValue)
    (requests : List String) : Outcome ρ :=
  if !userId.toBoolean || !revision.toBoolean then
    { result := Except.error (JsError.ReferenceError "用户Id和修订版本号revision都不能为空"),
      requests := requests }
  else
    let params : QueryParams := [("userId", userId), ("revision", revision)]
    httpGet http ("audited/userAtRevision?" ++ util.encodeUrlParams params) requests

end auditService

/-! ## Role audit controllers (roleAuthCfg/audit/ctrl.js) -/

/-- AngularJS `promise.success(callback)`, seen from the moment the request
settles: the callback runs on the response data when the request succeeded,
and nothing runs when it failed. -/
def success {ε δ σ : Type} (callback : δ → σ → σ) (response : Except ε δ) (state : σ) : σ :=
  match response with
  | Except.ok data => callback data state
  | Except.error _ => state

/-- The fields of the list controller (`self`); `pager` is `none` as long as
it has not been assigned. -/
structure RoleAuthAuditListCtrl (δ : Type) where
  roleMap : List (String × String)
  typeMap : List (String × String)
  params : QueryParams
  pager : Option δ

/-- Everything the list controller's code reads or writes: its own fields,
the arguments of the calls made to `service.roleRevision` (oldest first), the
number of calls of `$scope.getAuthentication` and the values logged to the
console. -/
structure ListWorld (δ : Type) where
  self : RoleAuthAuditListCtrl δ
  roleRevisionCalls : List QueryParams
  authenticationCalls : Nat
  console : List δ

namespace RoleAuthAuditListCtrl

/-- The callback `function(data) { self.pager = data; console.log(data); }`. -/
def onRoleRevision {δ : Type} (data : δ) (w : ListWorld δ) : ListWorld δ :=
  { w with self := { w.self with pager := some data }, console := w.console ++ [data] }

/-- Source:
```
function roleRevision() {
  service.roleRevision(self.params).success(function(data) {
    self.pager = data;
    console.log(data);
  });
}
```
The first component is the world right after the call; the second is what
happens to the world of that later moment when the request settles. -/
def roleRevision (ε : Type) {δ : Type} (w : ListWorld δ) :
    ListWorld δ × (Except ε δ → ListWorld δ → ListWorld δ) :=
  ({ w with roleRevisionCalls := w.roleRevisionCalls ++ [w.self.params] },
   success onRoleRevision)

/-- Source: `self.query = function() { roleRevision(); };` -/
def query (ε : Type) {δ : Type} (w : ListWorld δ) :
    ListWorld δ × (Except ε δ → ListWorld δ → ListWorld δ) :=
  roleRevision ε w

/-- Source:
```
self.reset = function() {
  self.params = { page : 1, pageSize : 20, name : '', };
};
``` -/
def reset {δ : Type} (w : ListWorld δ) : ListWorld δ :=
  { w with self := { w.self with
      params := [("page", JsValue.num 1), ("pageSize", JsValue.num 20), ("name", JsValue.str "")] } }

/-- The controller function itself: it fills `roleMap` and `typeMap`, calls
`$scope.getAuthentication()`, sets `params` and calls `roleRevision()` once.
The arguments are the state of the collaborators before the controller is
created. -/
def create (ε : Type) {δ : Type} (roleRevisionCalls : List QueryParams)
    (authenticationCalls : Nat) (console : List δ) :
    ListWorld δ × (Except ε δ → ListWorld δ → ListWorld δ) :=
  roleRevision ε
    { self :=
        { roleMap := [("admin", "管理员"), ("manager", "经理"), ("employee", "雇员"),
            ("user", "用户")],
          typeMap := [("ADD", "新增"), ("MOD", "修改"), ("DEL", "删除")],
          params := [("page", JsValue.num 1), ("pageSize", JsValue.num 20),
            ("name", JsValue.str "")],
          pager := none },
      roleRevisionCalls := roleRevisionCalls,
      authenticationCalls := authenticationCalls + 1,
      console := console }

end RoleAuthAuditListCtrl

/-- A value shown in the detail view: a scalar or an object with scalar
fields. -/
inductive DetailValue where
  | scalar (v : JsValue)
  | object (fields : List (String × JsValue))
  deriving DecidableEq, Repr

namespace RoleAuthAuditDetailCtrl

/-- Source:
```
/** 在详情中展示字符串，有的值是对象，所以需要处理 */
self.getValue = function(k, v) {
  var result, i, j, temp/*, auth*/;
  return result;
};
```
`result` is declared and never assigned, so it holds `undefined` when it is
returned. -/
def getValue (_k : String) (_v : DetailValue) : JsValue :=
  let result : JsValue := JsValue.undefined
  result

end RoleAuthAuditDetailCtrl

/-! ## Vocabulary of the statements -/

/-- The URL that the revision-history request is meant to have, given the
encoded query `args`: the bare path when `args` is empty, else the path, a
question mark and `args`. -/
def userRevisionUrl (args : String) : String :=
  if args = "" then "audited/userRevision" else "audited/userRevision?" ++ args

/-- A string that is not empty and does not end in a question mark. -/
def EndsClean (s : String) : Prop :=
  ∃ c, s.data.getLast? = some c ∧ c ≠ '?'

/-- The fields that the encoder keeps: those whose value is neither
`undefined` nor the empty string. -/
def keptFields (params : QueryParams) : QueryParams :=
  params.filter (fun kv => decide (kv.2 ≠ JsValue.undefined ∧ kv.2 ≠ JsValue.str ""))

/-- A stand-in for `util` whose encoder answers `query` whatever the
parameters, for statements that do not depend on the encoder. -/
def fixedUtil (query : String) : Util := { encodeUrlParams := fun _ => query }

/-- A transport whose every request fails with HTTP status 500. -/
def http500 : Http (Except Nat String) := { get := fun _ _ => Except.error 500 }

/-- The pair `key=percentEncodedValue` that a kept field contributes. -/
def fieldPair (kv : String × JsValue) : String :=
  kv.1 ++ "=" ++ encodeURIComponentRef kv.2.toJsString

/-- Names in the order in which they were first inserted. -/
def insertionOrder (keys : List String) : List String :=
  keys.foldl (fun seen k => if k ∈ seen then seen else seen ++ [k]) []

/-- How two names stand in property enumeration order when `a` comes before
`b`: an array index is preceded only by array indices that are smaller. -/
def EnumeratedBefore (a b : String) : Prop :=
  isArrayIndex b = true → isArrayIndex a = true ∧ arrayIndex a < arrayIndex b

/-- Safe integers, `-(2^53 - 1)` to `2^53 - 1`: the numbers for which
`String(n)` is the decimal numeral of `n`.  Every other value is in range. -/
def JsValue.isSafe : JsValue → Bool
  | JsValue.num n => decide (-9007199254740991 ≤ n ∧ n ≤ 9007199254740991)
  | _ => true

/-! ## Properties -/

/-- C1. When `params.revision` is absent (reading it gives `undefined`) or is
the empty string, `usersAtRevision` throws a `ReferenceError` synchronously
(the outcome is the thrown error, not a returned asynchronous result) and the
transport's request log is unchanged: no GET is issued. -/
theorem usersAtRevision_missing_revision_throws {ρ : Type} (http : Http ρ) (util : Util)
    (params : QueryParams) (requests : List String)
    (h : params.get "revision" = JsValue.undefined ∨ params.get "revision" = JsValue.str "") :
    (∃ message, (auditService.usersAtRevision http util params requests).result
        = Except.error (JsError.ReferenceError message))
    ∧ (auditService.usersAtRevision http util params requests).requests = requests := by
  rcases h with h | h <;> simp [auditService.usersAtRevision, h, JsValue.toBoolean]

/-- C1 at a concrete input: `{page: 1}` has no `revision` field. -/
theorem usersAtRevision_missing_revision_throws_witness :
    QueryParams.get [("page", JsValue.num 1)] "revision" = JsValue.undefined
    ∧ (∃ message, (auditService.usersAtRevision (Http.mk (fun _ _ => ())) (fixedUtil "page=1")
          [("page", JsValue.num 1)] ["audited/userRevision"]).result
        = Except.error (JsError.ReferenceError message))
    ∧ (auditService.usersAtRevision (Http.mk (fun _ _ => ())) (fixedUtil "page=1")
          [("page", JsValue.num 1)] ["audited/userRevision"]).requests
        = ["audited/userRevision"] :=
  ⟨by decide,
   usersAtRevision_missing_revision_throws (Http.mk (fun _ _ => ())) (fixedUtil "page=1")
     [("page", JsValue.num 1)] ["audited/userRevision"] (Or.inl (by decide))⟩

/-- C2. When `userId` or `revision` is missing (`undefined`) or the empty
string, whichever of the two it is and whatever the other one holds,
`userAtRevision` throws a `ReferenceError` synchronously and the transport's
request log is unchanged: no GET is issued. -/
theorem userAtRevision_missing_argument_throws {ρ : Type} (http : Http ρ) (util : Util)
    (userId revision : JsValue) (requests : List String)
    (h : (userId = JsValue.undefined ∨ userId = JsValue.str "")
        ∨ (revision = JsValue.undefined ∨ revision = JsValue.str "")) :
    (∃ message, (auditService.userAtRevision http util userId revision requests).result
        = Except.error (JsError.ReferenceError message))
    ∧ (auditService.userAtRevision http util userId revision requests).requests = requests := by
  rcases h with (h | h) | (h | h) <;>
    simp [auditService.userAtRevision, h, JsValue.toBoolean]

/-- C2 at a concrete input: `userAtRevision('u123', undefined)`. -/
theorem userAtRevision_missing_argument_throws_witness :
    (∃ message, (auditService.userAtRevision (Http.mk (fun _ _ => ())) (fixedUtil "")
          (JsValue.str "u123") JsValue.undefined []).result
        = Except.error (JsError.ReferenceError message))
    ∧ (auditService.userAtRevision (Http.mk (fun _ _ => ())) (fixedUtil "")
          (JsValue.str "u123") JsValue.undefined []).requests = [] :=
  userAtRevision_missing_argument_throws (Http.mk (fun _ _ => ())) (fixedUtil "")
    (JsValue.str "u123") JsValue.undefined [] (Or.inr (Or.inl rfl))

/-- The two fields built by `userAtRevision`, as the encoder of the spec
serialises them. -/
theorem encodeUrlParams_userId_revision (userId revision : String)
    (hu : userId ≠ "") (hr : revision ≠ "") :
    encodeUrlParams [("userId", JsValue.str userId), ("revision", JsValue.str revision)]
      = "userId=" ++ encodeURIComponent userId ++ "&revision=" ++ encodeURIComponent revision := by
  have e : "&" ++ "revision=" = "&revision=" := by decide
  simp [encodeUrlParams, encodeFields, hu, hr, JsValue.toJsString, String.intercalate,
    String.intercalate.go, String.append_assoc]
  rw [← String.append_assoc "&", e]

/-- C3. For non-empty strings `userId` and `revision`, `userAtRevision` throws
nothing and issues exactly one GET, whose URL is `audited/userAtRevision?`
followed by the encoding of `{userId, revision}` (for every injected encoder);
with the encoder of the spec that URL is
`audited/userAtRevision?userId=<enc userId>&revision=<enc revision>`. -/
theorem userAtRevision_issues_one_get {ρ : Type} (http : Http ρ) (util : Util)
    (userId revision : String) (requests : List String)
    (hu : userId ≠ "") (hr : revision ≠ "") :
    ((auditService.userAtRevision http util (JsValue.str userId) (JsValue.str revision)
          requests).result
        = Except.ok (http.get requests ("audited/userAtRevision?" ++ util.encodeUrlParams
            [("userId", JsValue.str userId), ("revision", JsValue.str revision)]))
      ∧ (auditService.userAtRevision http util (JsValue.str userId) (JsValue.str revision)
          requests).requests
        = requests ++ ["audited/userAtRevision?" ++ util.encodeUrlParams
            [("userId", JsValue.str userId), ("revision", JsValue.str revision)]])
    ∧ (auditService.userAtRevision http specUtil (JsValue.str userId) (JsValue.str revision)
          requests).requests
        = requests ++ ["audited/userAtRevision?userId=" ++ encodeURIComponent userId
            ++ "&revision=" ++ encodeURIComponent revision] := by
  have hq := encodeUrlParams_userId_revision userId revision hu hr
  have e : "audited/userAtRevision?" ++ "userId=" = "audited/userAtRevision?userId=" := by decide
  simp [auditService.userAtRevision, httpGet, JsValue.toBoolean, hu, hr, specUtil, hq,
    String.append_assoc]
  rw [← String.append_assoc "audited/userAtRevision?", e]

/-- C3 at the scenario of the spec: `userAtRevision('u123', '7')` issues the
single GET `audited/userAtRevision?userId=u123&revision=7`. -/
theorem userAtRevision_issues_one_get_witness :
    (auditService.userAtRevision (Http.mk (fun _ url => url)) specUtil (JsValue.str "u123")
        (JsValue.str "7") []).result
      = Except.ok "audited/userAtRevision?userId=u123&revision=7"
    ∧ (auditService.userAtRevision (Http.mk (fun _ url => url)) specUtil (JsValue.str "u123")
        (JsValue.str "7") []).requests
      = ["audited/userAtRevision?userId=u123&revision=7"] := by
  have h := userAtRevision_issues_one_get (Http.mk (fun _ url => url)) specUtil "u123" "7" []
    (by decide) (by decide)
  exact ⟨h.1.1.trans (congrArg Except.ok (by decide)), h.2.trans (by decide)⟩

/-! ### The last character of an encoded query -/

theorem hexDigit_ne_question (n : Nat) : hexDigit n ≠ '?' := by
  by_cases h : n < 16
  · interval_cases n <;> decide
  · have h16 : ("0123456789ABCDEF".data).length ≤ n := by
      have : ("0123456789ABCDEF".data).length = 16 := by decide
      omega
    simp only [hexDigit, List.getD_eq_default _ _ h16]
    decide

theorem percentEncode_ne_question (ch c : Char) (h : c ∈ percentEncode ch) : c ≠ '?' := by
  unfold percentEncode at h
  split at h
  · next hu =>
    have hc : c = ch := by simpa using h
    subst hc
    intro e
    subst e
    exact absurd hu (by decide)
  · simp only [List.mem_flatMap] at h
    obtain ⟨b, -, hb⟩ := h
    simp only [List.mem_cons, List.mem_singleton, List.not_mem_nil, or_false] at hb
    rcases hb with hb | hb | hb
    · subst hb; decide
    · subst hb; exact hexDigit_ne_question _
    · subst hb; exact hexDigit_ne_question _

theorem encodeURIComponent_ne_question (s : String) (c : Char)
    (h : c ∈ (encodeURIComponent s).data) : c ≠ '?' := by
  simp only [encodeURIComponent, List.mem_flatMap] at h
  obtain ⟨ch, -, hc⟩ := h
  exact percentEncode_ne_question ch c hc

theorem EndsClean.append_left (x : String) {a : String} (h : EndsClean a) :
    EndsClean (x ++ a) := by
  obtain ⟨c, hc, hne⟩ := h
  exact ⟨c, by simp [String.data_append, List.getLast?_append, hc], hne⟩

theorem endsClean_field (key value : String) :
    EndsClean (key ++ "=" ++ encodeURIComponent value) := by
  rw [String.append_assoc]
  apply EndsClean.append_left
  cases hE : (encodeURIComponent value).data.getLast? with
  | none =>
    refine ⟨'=', ?_, by decide⟩
    simp [String.data_append, List.getLast?_cons, hE]
  | some c =>
    refine ⟨c, ?_, encodeURIComponent_ne_question value c (List.mem_of_getLast?_eq_some hE)⟩
    simp [String.data_append, List.getLast?_cons, hE]

theorem endsClean_encodeFields (params : QueryParams) :
    ∀ field ∈ encodeFields params, EndsClean field := by
  induction params with
  | nil => simp [encodeFields]
  | cons kv rest ih =>
    obtain ⟨key, value⟩ := kv
    intro field hf
    unfold encodeFields at hf
    split at hf
    · exact ih field hf
    · rcases List.mem_cons.mp hf with hf | hf
      · subst hf; exact endsClean_field key _
      · exact ih field hf

theorem endsClean_intercalate_go (sep : String) :
    ∀ (fields : List String) (acc : String), EndsClean acc →
      (∀ field ∈ fields, EndsClean field) →
      EndsClean (String.intercalate.go acc sep fields) := by
  intro fields
  induction fields with
  | nil => intro acc hacc _; simpa [String.intercalate.go] using hacc
  | cons a rest ih =>
    intro acc _ hall
    simp only [String.intercalate.go]
    exact ih _ (EndsClean.append_left _ (hall a (List.mem_cons_self _ _)))
      (fun field hf => hall field (List.mem_cons_of_mem _ hf))

/-- A non-empty query string produced by the encoder of the spec does not end
in a question mark. -/
theorem endsClean_encodeUrlParams (params : QueryParams)
    (h : encodeUrlParams params ≠ "") : EndsClean (encodeUrlParams params) := by
  have hall := endsClean_encodeFields params
  unfold encodeUrlParams at h ⊢
  cases hf : encodeFields params with
  | nil => rw [hf] at h; exact absurd rfl h
  | cons a rest =>
    rw [hf] at hall
    simp only [String.intercalate]
    exact endsClean_intercalate_go "&" rest a (hall a (List.mem_cons_self _ _))
      (fun field hfield => hall field (List.mem_cons_of_mem _ hfield))

/-! ### `usersAtRevision`: the guard -/

/-- C4, as stated, fails: `{revision: 0}` has a `revision` field that is a
number, yet `usersAtRevision` throws the validation error and issues no GET. -/
theorem usersAtRevision_zero_revision_throws :
    QueryParams.get [("revision", JsValue.num 0)] "revision" = JsValue.num 0
    ∧ (auditService.usersAtRevision (Http.mk (fun _ url => url)) (fixedUtil "revision=0")
          [("revision", JsValue.num 0)] []).result
        = Except.error (JsError.ReferenceError "修订版本号revision为空")
    ∧ (auditService.usersAtRevision (Http.mk (fun _ url => url)) (fixedUtil "revision=0")
          [("revision", JsValue.num 0)] []).requests = [] := by
  refine ⟨by decide, ?_, ?_⟩ <;>
    simp [auditService.usersAtRevision, QueryParams.get, List.lookup, JsValue.toBoolean]

/-- C4, amended. When `params.revision` is a non-empty string or a number other
than `0` and `NaN`, `usersAtRevision` throws nothing and issues exactly one
GET, whose URL is `audited/usersAtRevision?` followed by the encoding of
`params`; and the validation error is thrown exactly when `params.revision` is
falsy: absent or `undefined`, the empty string, `0` or `NaN`. -/
theorem usersAtRevision_guard {ρ : Type} (http : Http ρ) (util : Util)
    (params : QueryParams) (requests : List String) :
    (((∃ s, s ≠ "" ∧ params.get "revision" = JsValue.str s)
        ∨ (∃ n, n ≠ 0 ∧ params.get "revision" = JsValue.num n)) →
      (auditService.usersAtRevision http util params requests).result
          = Except.ok (http.get requests
              ("audited/usersAtRevision?" ++ util.encodeUrlParams params))
        ∧ (auditService.usersAtRevision http util params requests).requests
          = requests ++ ["audited/usersAtRevision?" ++ util.encodeUrlParams params])
    ∧ ((∃ message, (auditService.usersAtRevision http util params requests).result
          = Except.error (JsError.ReferenceError message))
        ↔ (params.get "revision" = JsValue.undefined ∨ params.get "revision" = JsValue.str ""
            ∨ params.get "revision" = JsValue.num 0 ∨ params.get "revision" = JsValue.nan)) := by
  constructor
  · rintro (⟨s, hs, h⟩ | ⟨n, hn, h⟩)
    · simp [auditService.usersAtRevision, httpGet, h, JsValue.toBoolean, hs]
    · simp [auditService.usersAtRevision, httpGet, h, JsValue.toBoolean, hn]
  · cases h : params.get "revision" with
    | undefined => simp [auditService.usersAtRevision, h, JsValue.toBoolean]
    | nan => simp [auditService.usersAtRevision, h, JsValue.toBoolean]
    | str s =>
      by_cases hs : s = "" <;>
        simp [auditService.usersAtRevision, httpGet, h, JsValue.toBoolean, hs]
    | num n =>
      by_cases hn : n = 0 <;>
        simp [auditService.usersAtRevision, httpGet, h, JsValue.toBoolean, hn]

/-- C4, amended, at a concrete input: `{revision: 7, page: 1}` with the
numeric revision `7`. -/
theorem usersAtRevision_guard_witness :
    (auditService.usersAtRevision (Http.mk (fun _ url => url)) (fixedUtil "revision=7&page=1")
        [("revision", JsValue.num 7), ("page", JsValue.num 1)] []).result
      = Except.ok "audited/usersAtRevision?revision=7&page=1"
    ∧ (auditService.usersAtRevision (Http.mk (fun _ url => url)) (fixedUtil "revision=7&page=1")
        [("revision", JsValue.num 7), ("page", JsValue.num 1)] []).requests
      = ["audited/usersAtRevision?revision=7&page=1"] := by
  have h := (usersAtRevision_guard (Http.mk (fun _ url => url)) (fixedUtil "revision=7&page=1")
    [("revision", JsValue.num 7), ("page", JsValue.num 1)] []).1
    (Or.inr ⟨7, by decide, by decide⟩)
  exact ⟨h.1.trans (congrArg Except.ok (by decide)), h.2.trans (by decide)⟩

/-! ### `userRevision`: the URL -/

theorem userRevisionUrl_ne_bare (args : String) :
    userRevisionUrl args ≠ "audited/userRevision?" := by
  unfold userRevisionUrl
  split
  · decide
  · next h =>
    intro e
    apply h
    have e2 := congrArg String.data e
    rw [String.data_append] at e2
    have e3 : args.data = [] := List.append_right_eq_self.mp e2
    exact String.ext e3

theorem endsClean_userRevisionUrl (params : QueryParams) :
    EndsClean (userRevisionUrl (encodeUrlParams params)) := by
  unfold userRevisionUrl
  split
  · exact ⟨'n', by decide, by decide⟩
  · next h => exact EndsClean.append_left _ (endsClean_encodeUrlParams params h)

/-- C5. For every `params` (no field is required) `userRevision` throws
nothing and issues exactly one GET.  For every injected encoder its URL is
`audited/userRevision` alone when the encoded query is empty and
`audited/userRevision?` followed by the encoded query otherwise, so it is never
the path with a bare `?`; with the encoder of the spec the URL moreover never
has `?` as its last character. -/
theorem userRevision_url {ρ : Type} (http : Http ρ) (util : Util) (params : QueryParams)
    (requests : List String) :
    (auditService.userRevision http util params requests).result
      = Except.ok (http.get requests (userRevisionUrl (util.encodeUrlParams params)))
    ∧ (auditService.userRevision http util params requests).requests
      = requests ++ [userRevisionUrl (util.encodeUrlParams params)]
    ∧ userRevisionUrl (util.encodeUrlParams params) ≠ "audited/userRevision?"
    ∧ (auditService.userRevision http specUtil params requests).requests
      = requests ++ [userRevisionUrl (encodeUrlParams params)]
    ∧ EndsClean (userRevisionUrl (encodeUrlParams params)) := by
  have key : ∀ u : Util, auditService.userRevision http u params requests
      = httpGet http (userRevisionUrl (u.encodeUrlParams params)) requests := by
    intro u
    have e : "audited/userRevision" ++ "?" = "audited/userRevision?" := by decide
    by_cases h : u.encodeUrlParams params = ""
    · simp [auditService.userRevision, userRevisionUrl, JsValue.toBoolean, h]
    · simp [auditService.userRevision, userRevisionUrl, JsValue.toBoolean, h]
      rw [← String.append_assoc, e]
  refine ⟨?_, ?_, userRevisionUrl_ne_bare _, ?_, endsClean_userRevisionUrl params⟩
  · rw [key]; rfl
  · rw [key]; rfl
  · rw [key]; rfl

/-! ### The encoder of the spec: percent-encoding -/

theorem hexDigit_eq_digitChar (n : Nat) (h : n < 16) :
    hexDigit n = (Nat.digitChar n).toUpper := by
  interval_cases n <;> decide

theorem isUnreserved_lt (c : Char) (h : isUnreserved c = true) : c.toNat < 128 := by
  simp only [isUnreserved, Char.isAlphanum, Char.isAlpha, Char.isUpper, Char.isLower,
    Char.isDigit, Bool.or_eq_true, Bool.and_eq_true, decide_eq_true_eq] at h
  have key : ∀ m : Nat, m < 128 → c.val ≤ UInt32.ofNat m → c.toNat < 128 := by
    intro m hm hle
    have := UInt32.toNat_le_of_le (by unfold UInt32.size; omega) hle
    show c.val.toNat < 128
    omega
  rcases h with ((⟨-, h⟩ | ⟨-, h⟩) | ⟨-, h⟩) | h
  · exact key 90 (by decide) h
  · exact key 122 (by decide) h
  · exact key 57 (by decide) h
  · simp only [List.contains_eq_any_beq, List.any_cons, List.any_nil, Bool.or_false,
      Bool.or_eq_true, beq_iff_eq] at h
    rcases h with h | h | h | h | h | h | h | h | h <;> subst h <;> decide

theorem isUnreserved_eq_mem (c : Char) : isUnreserved c = decide (c ∈ unreservedChars) := by
  by_cases h : c.toNat < 128
  · have hc : c = Char.ofNat c.toNat := (Char.ofNat_toNat c).symm
    rw [hc]
    generalize c.toNat = n at h
    interval_cases n <;> decide
  · have h1 : isUnreserved c = false := by
      cases hu : isUnreserved c with
      | false => rfl
      | true => exact absurd (isUnreserved_lt c hu) h
    have h2 : c ∉ unreservedChars := by
      intro hm
      have hall : ∀ x ∈ unreservedChars, x.toNat < 128 := by decide
      exact h (hall c hm)
    rw [h1]
    exact (decide_eq_false h2).symm

theorem char_toNat_lt (c : Char) : c.toNat < 0x110000 := by
  have h := c.valid
  show c.val.toNat < 0x110000
  rcases h with h | ⟨-, h⟩
  · have : c.val.toNat < 0xd800 := h
    omega
  · exact h

theorem or_mask (lead width : Nat) (x : Nat)
    (hw : width = 64 ∨ width = 32 ∨ width = 16 ∨ width = 8)
    (hl : lead = 0x80 ∨ lead = 0xC0 ∨ lead = 0xE0 ∨ lead = 0xF0) (hfit : width ≤ 256 - lead) :
    (x % width) ||| lead = lead + x % width := by
  have hx : x % width < width := Nat.mod_lt _ (by omega)
  generalize x % width = y at hx
  rcases hw with rfl | rfl | rfl | rfl <;> rcases hl with rfl | rfl | rfl | rfl <;>
    first
    | omega
    | (interval_cases y <;> rfl)

theorem masked_or (x bits lead : Nat) (hb : bits = 6 ∨ bits = 5 ∨ bits = 4 ∨ bits = 3)
    (hl : lead = 0x80 ∨ lead = 0xC0 ∨ lead = 0xE0 ∨ lead = 0xF0)
    (hfit : 2 ^ bits ≤ 256 - lead) :
    (x % 256 &&& (2 ^ bits - 1)) ||| lead = lead + x % 2 ^ bits := by
  rw [Nat.and_pow_two_sub_one_eq_mod]
  have hw : 2 ^ bits = 64 ∨ 2 ^ bits = 32 ∨ 2 ^ bits = 16 ∨ 2 ^ bits = 8 := by
    rcases hb with rfl | rfl | rfl | rfl <;> simp
  rw [or_mask lead (2 ^ bits) (x % 256) hw hl hfit]
  rcases hw with h | h | h | h <;> rw [h] <;> omega

theorem shiftRight_toNat (v : UInt32) (shift : Nat) (hs : shift < 32) :
    (v >>> (UInt32.ofNat shift)).toNat = v.toNat / 2 ^ shift := by
  show (v.toBitVec >>> ((UInt32.ofNat shift).mod 32).toBitVec).toNat = _
  have e : ((UInt32.ofNat shift).mod 32).toBitVec.toNat = shift := by
    show (BitVec.umod (BitVec.ofNat 32 shift) (BitVec.ofNat 32 32)).toNat = shift
    simp [BitVec.toNat_umod, BitVec.toNat_ofNat]
    omega
  simp only [HShiftRight.hShiftRight, BitVec.ushiftRight, BitVec.toNat_ofNatLt]
  rw [e]
  show v.toNat >>> shift = _
  exact Nat.shiftRight_eq_div_pow _ _

theorem byte_toNat (v : UInt32) (shift : Nat) (hs : shift < 32) (mask lead : UInt8) :
    ((v >>> (UInt32.ofNat shift)).toUInt8 &&& mask ||| lead).toNat
      = ((v.toNat / 2 ^ shift) % 256 &&& mask.toNat) ||| lead.toNat := by
  show ((BitVec.ofNat 8 (v >>> (UInt32.ofNat shift)).toNat &&& mask.toBitVec)
      ||| lead.toBitVec).toNat = _
  rw [BitVec.toNat_or, BitVec.toNat_and, BitVec.toNat_ofNat, shiftRight_toNat v shift hs]
  rfl

theorem last_toNat (v : UInt32) (mask lead : UInt8) :
    (v.toUInt8 &&& mask ||| lead).toNat = (v.toNat % 256 &&& mask.toNat) ||| lead.toNat := by
  show ((BitVec.ofNat 8 v.toNat &&& mask.toBitVec) ||| lead.toBitVec).toNat = _
  rw [BitVec.toNat_or, BitVec.toNat_and, BitVec.toNat_ofNat]
  rfl

/-- The octets of `utf8Bytes` are those of the UTF-8 encoder of the Lean
library. -/
theorem utf8Bytes_eq_utf8EncodeChar (c : Char) :
    utf8Bytes c.toNat = (String.utf8EncodeChar c).map UInt8.toNat := by
  have hlt := char_toNat_lt c
  have hle : ∀ m : Nat, m < 2 ^ 32 → (c.val ≤ UInt32.ofNat m ↔ c.toNat ≤ m) := by
    intro m hm
    show c.val.toBitVec.toNat ≤ (BitVec.ofNat 32 m).toNat ↔ _
    rw [BitVec.toNat_ofNat, Nat.mod_eq_of_lt hm]
    rfl
  have h1 : c.val ≤ (0x7f : UInt32) ↔ c.toNat ≤ 0x7f := hle 0x7f (by norm_num)
  have h2 : c.val ≤ (0x7ff : UInt32) ↔ c.toNat ≤ 0x7ff := hle 0x7ff (by norm_num)
  have h3 : c.val ≤ (0xffff : UInt32) ↔ c.toNat ≤ 0xffff := hle 0xffff (by norm_num)
  have cont0 : (c.val.toUInt8 &&& 0x3f ||| 0x80).toNat = 0x80 + c.toNat % 64 := by
    rw [last_toNat]
    exact masked_or c.toNat 6 0x80 (by simp) (by simp) (by norm_num)
  have cont : ∀ shift : Nat, shift < 32 →
      ((c.val >>> (UInt32.ofNat shift)).toUInt8 &&& 0x3f ||| 0x80).toNat
        = 0x80 + c.toNat / 2 ^ shift % 64 := by
    intro shift hs
    rw [byte_toNat _ _ hs]
    exact masked_or (c.toNat / 2 ^ shift) 6 0x80 (by simp) (by simp) (by norm_num)
  have lead2 : ((c.val >>> (6 : UInt32)).toUInt8 &&& 0x1f ||| 0xc0).toNat
      = 0xC0 + c.toNat / 2 ^ 6 % 32 := by
    have e := byte_toNat c.val 6 (by norm_num) 0x1f 0xc0
    exact e.trans (masked_or (c.toNat / 2 ^ 6) 5 0xC0 (by simp) (by simp) (by norm_num))
  have lead3 : ((c.val >>> (12 : UInt32)).toUInt8 &&& 0x0f ||| 0xe0).toNat
      = 0xE0 + c.toNat / 2 ^ 12 % 16 := by
    have e := byte_toNat c.val 12 (by norm_num) 0x0f 0xe0
    exact e.trans (masked_or (c.toNat / 2 ^ 12) 4 0xE0 (by simp) (by simp) (by norm_num))
  have lead4 : ((c.val >>> (18 : UInt32)).toUInt8 &&& 0x07 ||| 0xf0).toNat
      = 0xF0 + c.toNat / 2 ^ 18 % 8 := by
    have e := byte_toNat c.val 18 (by norm_num) 0x07 0xf0
    exact e.trans (masked_or (c.toNat / 2 ^ 18) 3 0xF0 (by simp) (by simp) (by norm_num))
  have c6 : ((c.val >>> (6 : UInt32)).toUInt8 &&& 0x3f ||| 0x80).toNat
      = 0x80 + c.toNat / 2 ^ 6 % 64 := cont 6 (by norm_num)
  have c12 : ((c.val >>> (12 : UInt32)).toUInt8 &&& 0x3f ||| 0x80).toNat
      = 0x80 + c.toNat / 2 ^ 12 % 64 := cont 12 (by norm_num)
  have e0 : c.val.toUInt8.toNat = c.toNat % 256 := rfl
  unfold utf8Bytes String.utf8EncodeChar
  by_cases a1 : c.toNat ≤ 0x7f
  · rw [if_pos (h1.mpr a1), if_pos (show c.toNat < 0x80 by omega)]
    simp only [List.map_cons, List.map_nil, e0]
    congr 1; omega
  · rw [if_neg (fun h => a1 (h1.mp h)), if_neg (show ¬ c.toNat < 0x80 by omega)]
    by_cases a2 : c.toNat ≤ 0x7ff
    · rw [if_pos (h2.mpr a2), if_pos (show c.toNat < 0x800 by omega)]
      simp only [List.map_cons, List.map_nil, lead2, cont0]
      congr 2; omega
    · rw [if_neg (fun h => a2 (h2.mp h)), if_neg (show ¬ c.toNat < 0x800 by omega)]
      by_cases a3 : c.toNat ≤ 0xffff
      · rw [if_pos (h3.mpr a3), if_pos (show c.toNat < 0x10000 by omega)]
        simp only [List.map_cons, List.map_nil, lead3, c6, cont0]
        congr 2; omega
      · rw [if_neg (fun h => a3 (h3.mp h)), if_neg (show ¬ c.toNat < 0x10000 by omega)]
        simp only [List.map_cons, List.map_nil, lead4, c12, c6, cont0]
        congr 2; omega

theorem flatMap_hex_eq (bytes : List UInt8) :
    (bytes.map UInt8.toNat).flatMap (fun b => ['%', hexDigit (b / 16), hexDigit (b % 16)])
      = bytes.flatMap (fun b =>
          ['%', (Nat.digitChar (b.toNat / 16)).toUpper, (Nat.digitChar (b.toNat % 16)).toUpper]) := by
  induction bytes with
  | nil => rfl
  | cons b rest ih =>
    have hb : b.toNat < 256 := b.toBitVec.isLt
    simp only [List.map_cons, List.flatMap_cons, ih,
      hexDigit_eq_digitChar (b.toNat / 16) (by omega),
      hexDigit_eq_digitChar (b.toNat % 16) (by omega)]

theorem percentEncode_eq_ref (c : Char) : percentEncode c = percentEncodeRef c := by
  unfold percentEncode percentEncodeRef
  rw [isUnreserved_eq_mem, utf8Bytes_eq_utf8EncodeChar, flatMap_hex_eq]
  by_cases h : c ∈ unreservedChars
  · simp [h]
  · simp [h]

/-- The percent-encoding of the model is ECMAScript `encodeURIComponent` as
written with the UTF-8 encoder of the Lean library. -/
theorem encodeURIComponent_eq_ref (s : String) :
    encodeURIComponent s = encodeURIComponentRef s := by
  unfold encodeURIComponent encodeURIComponentRef
  congr 1
  induction s.data with
  | nil => rfl
  | cons c cs ih => simp only [List.flatMap_cons, ih, percentEncode_eq_ref]

/-! ### The encoder of the spec: decoding gives the value back -/

theorem hexValue_hexDigit (n : Nat) (h : n < 16) : hexValue (hexDigit n) = some n := by
  interval_cases n <;> decide

theorem utf8Bytes_lt (n : Nat) (hn : n < 0x110000) : ∀ b ∈ utf8Bytes n, b < 256 := by
  intro b hb
  unfold utf8Bytes at hb
  split at hb
  · simp at hb; omega
  · split at hb
    · simp at hb; omega
    · split at hb
      · simp at hb; omega
      · simp at hb; omega

theorem percentDecode_triples (rest : List Char) :
    ∀ bytes : List Nat, (∀ b ∈ bytes, b < 256) →
      percentDecode
          (bytes.flatMap (fun b => ['%', hexDigit (b / 16), hexDigit (b % 16)]) ++ rest)
        = (percentDecode rest).map (fun tail => bytes ++ tail) := by
  intro bytes
  induction bytes with
  | nil => intro _; simp
  | cons b bs ih =>
    intro hb
    have hb0 : b < 256 := hb b (List.mem_cons_self _ _)
    have ih2 := ih (fun x hx => hb x (List.mem_cons_of_mem _ hx))
    have h1 : hexValue (hexDigit (b / 16)) = some (b / 16) := hexValue_hexDigit _ (by omega)
    have h2 : hexValue (hexDigit (b % 16)) = some (b % 16) := hexValue_hexDigit _ (by omega)
    have e : 16 * (b / 16) + b % 16 = b := by omega
    simp only [List.flatMap_cons, List.cons_append, List.nil_append, List.append_assoc]
    simp only [percentDecode, if_true, h1, h2, ih2]
    cases percentDecode rest <;> simp [e]

theorem percentDecode_unreserved (c : Char) (rest : List Char) (hne : c ≠ '%')
    (hu : isUnreserved c = true) :
    percentDecode (c :: rest) = (percentDecode rest).map (fun tail => c.toNat :: tail) := by
  rcases rest with _ | ⟨h, _ | ⟨l, rest2⟩⟩ <;>
    simp only [percentDecode, hne, hu, if_true, if_false]
  · rfl
  · split <;> next heq => rw [heq]; rfl
  · split <;> next heq => rw [heq]; rfl

theorem percentDecode_percentEncode (c : Char) (rest : List Char) :
    percentDecode (percentEncode c ++ rest)
      = (percentDecode rest).map (fun tail => utf8Bytes c.toNat ++ tail) := by
  unfold percentEncode
  split
  · next hu =>
    have hlt := isUnreserved_lt c hu
    have hne : c ≠ '%' := by
      intro e; subst e; exact absurd hu (by decide)
    have hb : utf8Bytes c.toNat = [c.toNat] := by simp [utf8Bytes, hlt]
    simp only [List.cons_append, List.nil_append, hb]
    exact percentDecode_unreserved c rest hne hu
  · exact percentDecode_triples rest _ (utf8Bytes_lt _ (char_toNat_lt c))

theorem percentDecode_flatMap (cs : List Char) :
    percentDecode (cs.flatMap percentEncode)
      = some (cs.flatMap (fun c => utf8Bytes c.toNat)) := by
  induction cs with
  | nil => simp [percentDecode]
  | cons c cs ih =>
    simp only [List.flatMap_cons]
    rw [percentDecode_percentEncode, ih]
    simp

theorem utf8DecodeChar_utf8Bytes (c : Char) (rest : List Nat) :
    utf8DecodeChar (utf8Bytes c.toNat ++ rest) = some (c, rest) := by
  have hlt := char_toNat_lt c
  unfold utf8Bytes
  split
  · next h => simp [utf8DecodeChar, h]
  · next h =>
    split
    · next h2 =>
      have e : (0xC0 + c.toNat / 64 - 0xC0) * 64 + (0x80 + c.toNat % 64 - 0x80) = c.toNat := by
        omega
      have a1 : ¬ (0xC0 + c.toNat / 64 < 0x80) := by omega
      have a2 : ¬ (0xC0 + c.toNat / 64 < 0xC0) := by omega
      have a3 : 0xC0 + c.toNat / 64 < 0xE0 := by omega
      simp only [List.cons_append, List.nil_append, utf8DecodeChar, a1, a2, a3, if_true,
        if_false, e, Char.ofNat_toNat]
    · next h2 =>
      split
      · next h3 =>
        have e : (0xE0 + c.toNat / 4096 - 0xE0) * 4096 + (0x80 + c.toNat / 64 % 64 - 0x80) * 64
            + (0x80 + c.toNat % 64 - 0x80) = c.toNat := by omega
        have a1 : ¬ (0xE0 + c.toNat / 4096 < 0x80) := by omega
        have a2 : ¬ (0xE0 + c.toNat / 4096 < 0xC0) := by omega
        have a3 : ¬ (0xE0 + c.toNat / 4096 < 0xE0) := by omega
        have a4 : 0xE0 + c.toNat / 4096 < 0xF0 := by omega
        simp only [List.cons_append, List.nil_append, utf8DecodeChar, a1, a2, a3, a4, if_true,
          if_false, e, Char.ofNat_toNat]
      · next h3 =>
        have e : (0xF0 + c.toNat / 262144 - 0xF0) * 262144
            + (0x80 + c.toNat / 4096 % 64 - 0x80) * 4096
            + (0x80 + c.toNat / 64 % 64 - 0x80) * 64
            + (0x80 + c.toNat % 64 - 0x80) = c.toNat := by omega
        have a1 : ¬ (0xF0 + c.toNat / 262144 < 0x80) := by omega
        have a2 : ¬ (0xF0 + c.toNat / 262144 < 0xC0) := by omega
        have a3 : ¬ (0xF0 + c.toNat / 262144 < 0xE0) := by omega
        have a4 : ¬ (0xF0 + c.toNat / 262144 < 0xF0) := by omega
        simp only [List.cons_append, List.nil_append, utf8DecodeChar, a1, a2, a3, a4,
          if_false, e, Char.ofNat_toNat]

theorem utf8Bytes_ne_nil (n : Nat) : utf8Bytes n ≠ [] := by
  unfold utf8Bytes
  split
  · simp
  · split
    · simp
    · split <;> simp

theorem utf8DecodeAux_flatMap :
    ∀ (cs : List Char) (fuel : Nat),
      (cs.flatMap (fun c => utf8Bytes c.toNat)).length ≤ fuel →
      utf8DecodeAux fuel (cs.flatMap (fun c => utf8Bytes c.toNat)) = some cs := by
  intro cs
  induction cs with
  | nil => intro fuel _; cases fuel <;> simp [utf8DecodeAux]
  | cons c cs ih =>
    intro fuel hfuel
    simp only [List.flatMap_cons] at hfuel ⊢
    have hstep := utf8DecodeChar_utf8Bytes c (cs.flatMap (fun c => utf8Bytes c.toNat))
    have hne := utf8Bytes_ne_nil c.toNat
    cases hb : utf8Bytes c.toNat with
    | nil => exact absurd hb hne
    | cons b bs =>
      rw [hb] at hstep hfuel
      cases fuel with
      | zero => simp at hfuel
      | succ fuel =>
        have hlen : (cs.flatMap (fun c => utf8Bytes c.toNat)).length ≤ fuel := by
          simp only [List.cons_append, List.length_cons, List.length_append] at hfuel
          omega
        simp only [List.cons_append] at hstep ⊢
        simp only [utf8DecodeAux, hstep, ih fuel hlen]

/-- Decoding an encoded value gives the value back: the encoding loses
nothing. -/
theorem decodeURIComponent_encodeURIComponent (s : String) :
    decodeURIComponent (encodeURIComponent s) = some s := by
  have h1 : percentDecode (encodeURIComponent s).data
      = some (s.data.flatMap (fun c => utf8Bytes c.toNat)) := percentDecode_flatMap s.data
  have h2 : utf8Decode (s.data.flatMap (fun c => utf8Bytes c.toNat)) = some s.data :=
    utf8DecodeAux_flatMap _ _ (Nat.le_refl _)
  simp only [decodeURIComponent, h1, h2]

/-! ### Objects: the order of their properties -/

theorem isArrayIndex_injective (a b : String) (ha : isArrayIndex a = true)
    (hb : isArrayIndex b = true) (h : arrayIndex a = arrayIndex b) : a = b := by
  simp only [isArrayIndex, Bool.and_eq_true, decide_eq_true_eq, beq_iff_eq] at ha hb
  rw [← ha.2, ← hb.2, h]

theorem not_mem_keys_of_not_any (obj : QueryParams) (key : String)
    (h : ¬ obj.any (fun kv => kv.1 == key) = true) : key ∉ obj.map Prod.fst := by
  intro hmem
  obtain ⟨kv, hkv, rfl⟩ := List.mem_map.mp hmem
  exact h (List.any_eq_true.mpr ⟨kv, hkv, by simp⟩)

theorem mem_keys_of_any_eq_true (obj : QueryParams) (key : String)
    (h : obj.any (fun kv => kv.1 == key) = true) : key ∈ obj.map Prod.fst := by
  obtain ⟨kv, hkv, he⟩ := List.any_eq_true.mp h
  have e : kv.1 = key := by simpa using he
  exact List.mem_map.mpr ⟨kv, hkv, e⟩

theorem keys_replace (obj : QueryParams) (key : String) (value : JsValue) :
    (obj.map (fun kv => if kv.1 == key then (kv.1, value) else kv)).map Prod.fst
      = obj.map Prod.fst := by
  induction obj with
  | nil => rfl
  | cons kv rest ih =>
    simp only [List.map_cons, ih]
    split <;> rfl

theorem insertIndex_perm (key : String) (value : JsValue) (obj : QueryParams) :
    List.Perm (insertIndex key value obj) ((key, value) :: obj) := by
  induction obj with
  | nil => exact List.Perm.refl _
  | cons kv rest ih =>
    obtain ⟨k, v⟩ := kv
    unfold insertIndex
    split
    · exact (List.Perm.cons _ ih).trans (List.Perm.swap _ _ _)
    · exact List.Perm.refl _

theorem keys_insertIndex_perm (key : String) (value : JsValue) (obj : QueryParams) :
    List.Perm ((insertIndex key value obj).map Prod.fst) (key :: obj.map Prod.fst) :=
  (insertIndex_perm key value obj).map Prod.fst

theorem defineProperty_nodup (obj : QueryParams) (key : String) (value : JsValue)
    (h : (obj.map Prod.fst).Nodup) : ((defineProperty obj key value).map Prod.fst).Nodup := by
  unfold defineProperty
  split
  · rw [keys_replace]; exact h
  · next hany =>
    have hnot := not_mem_keys_of_not_any obj key hany
    split
    · exact (keys_insertIndex_perm key value obj).nodup_iff.mpr (List.nodup_cons.mpr ⟨hnot, h⟩)
    · rw [List.map_append]
      exact List.Nodup.append h (List.nodup_singleton _)
        (by
          rw [List.disjoint_right]
          intro a ha
          have : a = key := by simpa using ha
          rw [this]; exact hnot)

theorem foldl_defineProperty_nodup (entries : List (String × JsValue)) :
    ∀ obj : QueryParams, (obj.map Prod.fst).Nodup →
      ((entries.foldl (fun o kv => defineProperty o kv.1 kv.2) obj).map Prod.fst).Nodup := by
  induction entries with
  | nil => intro obj h; exact h
  | cons kv rest ih =>
    intro obj h
    exact ih _ (defineProperty_nodup obj kv.1 kv.2 h)

theorem objectLiteral_nodup (entries : List (String × JsValue)) :
    ((objectLiteral entries).map Prod.fst).Nodup :=
  foldl_defineProperty_nodup entries [] List.nodup_nil

theorem insertIndex_enumerated (key : String) (value : JsValue) (hkey : isArrayIndex key = true) :
    ∀ obj : QueryParams, key ∉ obj.map Prod.fst →
      (obj.map Prod.fst).Pairwise EnumeratedBefore →
      ((insertIndex key value obj).map Prod.fst).Pairwise EnumeratedBefore := by
  intro obj
  induction obj with
  | nil => intro _ _; simp [insertIndex]
  | cons kv rest ih =>
    obtain ⟨k, v⟩ := kv
    intro hnot hpw
    simp only [List.map_cons, List.mem_cons, not_or] at hnot
    simp only [List.map_cons, List.pairwise_cons] at hpw
    unfold insertIndex
    split
    · next hlt =>
      simp only [Bool.and_eq_true, decide_eq_true_eq] at hlt
      simp only [List.map_cons, List.pairwise_cons]
      refine ⟨?_, ih hnot.2 hpw.2⟩
      intro x hx
      rcases List.mem_cons.mp ((keys_insertIndex_perm key value rest).mem_iff.mp hx) with hx | hx
      · subst hx; intro _; exact hlt
      · exact hpw.1 x hx
    · next hlt =>
      simp only [Bool.and_eq_true, decide_eq_true_eq, not_and] at hlt
      simp only [List.map_cons, List.pairwise_cons]
      refine ⟨?_, hpw⟩
      intro x hx hxi
      refine ⟨hkey, ?_⟩
      have hk : isArrayIndex k = true → arrayIndex key < arrayIndex k := by
        intro hki
        have h1 := hlt hki
        have h2 : arrayIndex k ≠ arrayIndex key := by
          intro e
          exact hnot.1 (isArrayIndex_injective k key hki hkey e).symm
        omega
      rcases List.mem_cons.mp hx with hx | hx
      · subst hx; exact hk hxi
      · have h3 := hpw.1 x hx hxi
        have h4 := hk h3.1
        omega

theorem defineProperty_enumerated (obj : QueryParams) (key : String) (value : JsValue)
    (h : (obj.map Prod.fst).Pairwise EnumeratedBefore) :
    ((defineProperty obj key value).map Prod.fst).Pairwise EnumeratedBefore := by
  unfold defineProperty
  split
  · rw [keys_replace]; exact h
  · next hany =>
    have hnot := not_mem_keys_of_not_any obj key hany
    split
    · next hidx => exact insertIndex_enumerated key value hidx obj hnot h
    · next hidx =>
      rw [List.map_append, List.pairwise_append]
      refine ⟨h, by simp, ?_⟩
      intro a _ b hb hbi
      have : b = key := by simpa using hb
      rw [this] at hbi
      exact absurd hbi hidx

theorem objectLiteral_enumerated (entries : List (String × JsValue)) :
    ((objectLiteral entries).map Prod.fst).Pairwise EnumeratedBefore := by
  have key : ∀ (es : List (String × JsValue)) (obj : QueryParams),
      (obj.map Prod.fst).Pairwise EnumeratedBefore →
      ((es.foldl (fun o kv => defineProperty o kv.1 kv.2) obj).map Prod.fst).Pairwise
        EnumeratedBefore := by
    intro es
    induction es with
    | nil => intro obj h; exact h
    | cons kv rest ih =>
      intro obj h
      exact ih _ (defineProperty_enumerated obj kv.1 kv.2 h)
  exact key entries [] List.Pairwise.nil

theorem insertIndex_filter_nonIndex (key : String) (value : JsValue)
    (hkey : isArrayIndex key = true) (obj : QueryParams) :
    ((insertIndex key value obj).map Prod.fst).filter (fun k => !isArrayIndex k)
      = (obj.map Prod.fst).filter (fun k => !isArrayIndex k) := by
  induction obj with
  | nil => simp [insertIndex, hkey]
  | cons kv rest ih =>
    obtain ⟨k, v⟩ := kv
    unfold insertIndex
    split
    · simp only [List.map_cons, List.filter_cons, ih]
    · simp [List.filter_cons, hkey]

theorem defineProperty_filter_nonIndex (obj : QueryParams) (key : String) (value : JsValue) :
    ((defineProperty obj key value).map Prod.fst).filter (fun k => !isArrayIndex k)
      = if isArrayIndex key = true then (obj.map Prod.fst).filter (fun k => !isArrayIndex k)
        else if key ∈ (obj.map Prod.fst).filter (fun k => !isArrayIndex k) then
          (obj.map Prod.fst).filter (fun k => !isArrayIndex k)
        else (obj.map Prod.fst).filter (fun k => !isArrayIndex k) ++ [key] := by
  unfold defineProperty
  by_cases hany : obj.any (fun kv => kv.1 == key) = true
  · rw [if_pos hany, keys_replace]
    have hmem := mem_keys_of_any_eq_true obj key hany
    by_cases hidx : isArrayIndex key = true
    · rw [if_pos hidx]
    · rw [if_neg hidx, if_pos]
      exact List.mem_filter.mpr ⟨hmem, by simpa using hidx⟩
  · rw [if_neg hany]
    have hnot := not_mem_keys_of_not_any obj key hany
    by_cases hidx : isArrayIndex key = true
    · rw [if_pos hidx, if_pos hidx]
      exact insertIndex_filter_nonIndex key value hidx obj
    · rw [if_neg hidx, if_neg hidx, if_neg]
      · simp [List.filter_append, List.filter_cons, hidx]
      · intro hm
        exact hnot (List.mem_filter.mp hm).1

theorem objectLiteral_filter_nonIndex (entries : List (String × JsValue)) :
    ((objectLiteral entries).map Prod.fst).filter (fun k => !isArrayIndex k)
      = insertionOrder ((entries.map Prod.fst).filter (fun k => !isArrayIndex k)) := by
  have key : ∀ (es : List (String × JsValue)) (obj : QueryParams),
      ((es.foldl (fun o kv => defineProperty o kv.1 kv.2) obj).map Prod.fst).filter
          (fun k => !isArrayIndex k)
        = ((es.map Prod.fst).filter (fun k => !isArrayIndex k)).foldl
            (fun seen k => if k ∈ seen then seen else seen ++ [k])
            ((obj.map Prod.fst).filter (fun k => !isArrayIndex k)) := by
    intro es
    induction es with
    | nil => intro obj; rfl
    | cons kv rest ih =>
      intro obj
      simp only [List.foldl_cons, List.map_cons]
      rw [ih, defineProperty_filter_nonIndex]
      by_cases hidx : isArrayIndex kv.1 = true
      · simp [List.filter_cons, hidx]
      · simp [List.filter_cons, hidx]
  exact key entries []

theorem foldl_defineProperty_eq_append (entries : List (String × JsValue)) :
    ∀ obj : QueryParams, (∀ kv ∈ entries, isArrayIndex kv.1 = false) →
      ((obj ++ entries).map Prod.fst).Nodup →
      entries.foldl (fun o kv => defineProperty o kv.1 kv.2) obj = obj ++ entries := by
  induction entries with
  | nil => intro obj _ _; simp
  | cons kv rest ih =>
    intro obj hidx hnd
    have hk : isArrayIndex kv.1 = false := hidx kv (List.mem_cons_self _ _)
    have hnot : kv.1 ∉ obj.map Prod.fst := by
      rw [List.map_append, List.map_cons] at hnd
      intro hm
      exact (List.nodup_append.mp hnd).2.2 hm (List.mem_cons_self _ _)
    have hany : ¬ obj.any (fun x => x.1 == kv.1) = true := by
      intro h
      exact hnot (mem_keys_of_any_eq_true obj kv.1 h)
    have hstep : defineProperty obj kv.1 kv.2 = obj ++ [kv] := by
      unfold defineProperty
      rw [if_neg hany, if_neg (by simp [hk])]
    simp only [List.foldl_cons, hstep]
    rw [ih (obj ++ [kv]) (fun x hx => hidx x (List.mem_cons_of_mem _ hx))
      (by simpa [List.append_assoc] using hnd)]
    simp [List.append_assoc]

theorem objectLiteral_eq_self (entries : List (String × JsValue))
    (hidx : ∀ kv ∈ entries, isArrayIndex kv.1 = false) (hnd : (entries.map Prod.fst).Nodup) :
    objectLiteral entries = entries := by
  have h := foldl_defineProperty_eq_append entries [] hidx (by simpa using hnd)
  simpa [objectLiteral] using h

theorem lookup_eq_none_of_not_mem (obj : QueryParams) (k : String)
    (h : k ∉ obj.map Prod.fst) : obj.lookup k = none := by
  induction obj with
  | nil => rfl
  | cons kv rest ih =>
    obtain ⟨k0, v0⟩ := kv
    simp only [List.map_cons, List.mem_cons, not_or] at h
    have hb : (k == k0) = false := by simpa using h.1
    rw [List.lookup_cons, hb]
    exact ih h.2

theorem lookup_replace_other (obj : QueryParams) (key : String) (value : JsValue) (k : String)
    (hk : k ≠ key) :
    (obj.map (fun kv => if kv.1 == key then (kv.1, value) else kv)).lookup k = obj.lookup k := by
  induction obj with
  | nil => rfl
  | cons kv rest ih =>
    obtain ⟨k0, v0⟩ := kv
    rw [List.map_cons]
    dsimp only
    by_cases h0 : (k0 == key) = true
    · have e0 : k0 = key := by simpa using h0
      have hb : (k == k0) = false := by rw [e0]; simpa using hk
      rw [if_pos h0, List.lookup_cons, List.lookup_cons, hb]
      exact ih
    · rw [if_neg h0, List.lookup_cons, List.lookup_cons, ih]

theorem lookup_replace_self (obj : QueryParams) (key : String) (value : JsValue)
    (hany : obj.any (fun kv => kv.1 == key) = true) :
    (obj.map (fun kv => if kv.1 == key then (kv.1, value) else kv)).lookup key = some value := by
  induction obj with
  | nil => simp at hany
  | cons kv rest ih =>
    obtain ⟨k0, v0⟩ := kv
    rw [List.map_cons]
    dsimp only
    by_cases h0 : (k0 == key) = true
    · have e0 : k0 = key := by simpa using h0
      have hb : (key == k0) = true := by rw [e0]; simp
      rw [if_pos h0, List.lookup_cons, hb]
    · have e0 : ¬ k0 = key := by simpa using h0
      have hb : (key == k0) = false := by simpa using Ne.symm e0
      have hrest : rest.any (fun kv => kv.1 == key) = true := by
        rw [List.any_cons] at hany
        dsimp only at hany
        rw [Bool.or_eq_true] at hany
        exact hany.resolve_left h0
      rw [if_neg h0, List.lookup_cons, hb]
      exact ih hrest

theorem lookup_insertIndex (key : String) (value : JsValue) (k : String) :
    ∀ obj : QueryParams, key ∉ obj.map Prod.fst →
      (insertIndex key value obj).lookup k = if k = key then some value else obj.lookup k := by
  intro obj
  induction obj with
  | nil =>
    intro _
    by_cases hk : k = key
    · subst hk; simp [insertIndex]
    · have hb : (k == key) = false := by simpa using hk
      rw [if_neg hk]
      simp only [insertIndex, List.lookup_cons, hb]
  | cons kv rest ih =>
    obtain ⟨k0, v0⟩ := kv
    intro hnot
    simp only [List.map_cons, List.mem_cons, not_or] at hnot
    unfold insertIndex
    split
    · rw [List.lookup_cons, List.lookup_cons, ih hnot.2]
      by_cases hk : k = k0
      · have hb : (k == k0) = true := by simpa using hk
        have hne : ¬ k = key := by rw [hk]; exact Ne.symm hnot.1
        simp only [hb, hne, if_false]
      · have hb : (k == k0) = false := by simpa using hk
        rw [hb]
    · by_cases hk : k = key
      · have hb : (k == key) = true := by simpa using hk
        rw [if_pos hk, List.lookup_cons, hb]
      · have hb : (k == key) = false := by simpa using hk
        rw [if_neg hk, List.lookup_cons, hb]

theorem lookup_defineProperty (obj : QueryParams) (key : String) (value : JsValue)
    (k : String) :
    (defineProperty obj key value).lookup k = if k = key then some value else obj.lookup k := by
  unfold defineProperty
  by_cases hany : obj.any (fun kv => kv.1 == key) = true
  · rw [if_pos hany]
    by_cases hk : k = key
    · rw [if_pos hk, hk]; exact lookup_replace_self obj key value hany
    · rw [if_neg hk]; exact lookup_replace_other obj key value k hk
  · rw [if_neg hany]
    have hnot := not_mem_keys_of_not_any obj key hany
    split
    · exact lookup_insertIndex key value k obj hnot
    · rw [List.lookup_append]
      by_cases hk : k = key
      · have hb : (k == key) = true := by simpa using hk
        rw [if_pos hk, hk, lookup_eq_none_of_not_mem obj key hnot, List.lookup_cons]
        simp
      · have hb : (k == key) = false := by simpa using hk
        rw [if_neg hk, List.lookup_cons, hb]
        simp

theorem objectLiteral_lookup (entries : List (String × JsValue)) (k : String) :
    (objectLiteral entries).lookup k = entries.reverse.lookup k := by
  have key : ∀ (es : List (String × JsValue)) (obj : QueryParams),
      (es.foldl (fun o kv => defineProperty o kv.1 kv.2) obj).lookup k
        = (es.reverse.lookup k).or (obj.lookup k) := by
    intro es
    induction es with
    | nil => intro obj; rfl
    | cons kv rest ih =>
      intro obj
      obtain ⟨k0, v0⟩ := kv
      rw [List.foldl_cons, ih, lookup_defineProperty, List.reverse_cons, List.lookup_append,
        Option.or_assoc, List.lookup_cons]
      by_cases hk : k = k0
      · have hb : (k == k0) = true := by simpa using hk
        rw [if_pos hk, hb]; rfl
      · have hb : (k == k0) = false := by simpa using hk
        rw [if_neg hk, hb]; rfl
  have h := key entries []
  rw [List.lookup_nil, Option.or_none] at h
  exact h

/-! ### The encoder of the spec: the fields it keeps -/

theorem encodeFields_eq_map_keptFields (params : QueryParams) :
    encodeFields params = (keptFields params).map fieldPair := by
  induction params with
  | nil => rfl
  | cons kv rest ih =>
    obtain ⟨key, value⟩ := kv
    unfold encodeFields
    by_cases h : value = JsValue.undefined ∨ value = JsValue.str ""
    · have hk : keptFields ((key, value) :: rest) = keptFields rest := by
        rcases h with h | h <;> simp [keptFields, h]
      rw [if_pos h, hk, ih]
    · have hk : keptFields ((key, value) :: rest) = (key, value) :: keptFields rest := by
        have h2 : value ≠ JsValue.undefined ∧ value ≠ JsValue.str "" := by
          constructor <;> intro e <;> exact h (by simp [e])
        simp [keptFields, h2]
      rw [if_neg h, hk, ih, List.map_cons, encodeURIComponent_eq_ref]
      rfl

theorem mem_keptKeys_iff (params : QueryParams) (hnd : (params.map Prod.fst).Nodup)
    (k : String) :
    k ∈ (keptFields params).map Prod.fst
      ↔ (params.get k ≠ JsValue.undefined ∧ params.get k ≠ JsValue.str "") := by
  induction params with
  | nil => simp [keptFields, QueryParams.get]
  | cons kv rest ih =>
    obtain ⟨k0, v0⟩ := kv
    rw [List.map_cons, List.nodup_cons] at hnd
    have ih2 := ih hnd.2
    have hsub : ∀ x, x ∈ (keptFields rest).map Prod.fst → x ∈ rest.map Prod.fst := by
      intro x hx
      exact (List.Sublist.map Prod.fst (List.filter_sublist rest)).subset hx
    have hkept : (keptFields ((k0, v0) :: rest)).map Prod.fst
        = if v0 ≠ JsValue.undefined ∧ v0 ≠ JsValue.str "" then
            k0 :: (keptFields rest).map Prod.fst
          else (keptFields rest).map Prod.fst := by
      by_cases hv : v0 ≠ JsValue.undefined ∧ v0 ≠ JsValue.str ""
      · rw [if_pos hv]; simp [keptFields, List.filter_cons, hv]
      · rw [if_neg hv]
        have hv2 : ¬ (¬ v0 = JsValue.undefined ∧ ¬ v0 = JsValue.str "") := hv
        simp [keptFields, List.filter_cons, hv2]
    rw [hkept]
    by_cases hk : k = k0
    · subst hk
      have hget : QueryParams.get ((k, v0) :: rest) k = v0 := by
        simp [QueryParams.get, List.lookup_cons]
      rw [hget]
      by_cases hv : v0 ≠ JsValue.undefined ∧ v0 ≠ JsValue.str ""
      · rw [if_pos hv]; simp [hv]
      · rw [if_neg hv]
        constructor
        · intro hx; exact absurd (hsub k hx) hnd.1
        · intro hv3; exact absurd hv3 hv
    · have hb : (k == k0) = false := by simpa using hk
      have hget : QueryParams.get ((k0, v0) :: rest) k = QueryParams.get rest k := by
        simp [QueryParams.get, List.lookup_cons, hb]
      rw [hget, ← ih2]
      by_cases hv : v0 ≠ JsValue.undefined ∧ v0 ≠ JsValue.str ""
      · rw [if_pos hv]; simp [hk]
      · rw [if_neg hv]

theorem keptKeys_nodup (params : QueryParams) (hnd : (params.map Prod.fst).Nodup) :
    ((keptFields params).map Prod.fst).Nodup :=
  List.Nodup.sublist (List.Sublist.map Prod.fst (List.filter_sublist params)) hnd

theorem userRevision_specUtil {ρ : Type} (http : Http ρ) (params : QueryParams)
    (requests : List String) :
    auditService.userRevision http specUtil params requests
      = httpGet http (userRevisionUrl (encodeUrlParams params)) requests := by
  have e : "audited/userRevision" ++ "?" = "audited/userRevision?" := by decide
  by_cases h : encodeUrlParams params = ""
  · simp [auditService.userRevision, userRevisionUrl, JsValue.toBoolean, specUtil, h]
  · simp [auditService.userRevision, userRevisionUrl, JsValue.toBoolean, specUtil, h]
    rw [← String.append_assoc, e]

/-! ### The encoder of the spec: the claim -/

theorem toDigitsCore_append (fuel : Nat) :
    ∀ (n : Nat) (ds : List Char),
      Nat.toDigitsCore 10 fuel n ds = Nat.toDigitsCore 10 fuel n [] ++ ds := by
  induction fuel with
  | zero => intro n ds; simp [Nat.toDigitsCore]
  | succ fuel ih =>
    intro n ds
    simp only [Nat.toDigitsCore]
    split
    · simp
    · rw [ih (n / 10) (Nat.digitChar (n % 10) :: ds), ih (n / 10) [Nat.digitChar (n % 10)]]
      simp

theorem decimalValue_append_singleton (ds : List Char) (c : Char) :
    decimalValue (ds ++ [c]) = 10 * decimalValue ds + (c.toNat - 48) := by
  simp [decimalValue, List.foldl_append]

theorem digitChar_value (d : Nat) (h : d < 10) : (Nat.digitChar d).toNat - 48 = d := by
  interval_cases d <;> rfl

theorem decimalValue_toDigitsCore (fuel : Nat) :
    ∀ n : Nat, n < fuel → decimalValue (Nat.toDigitsCore 10 fuel n []) = n := by
  induction fuel with
  | zero => intro n h; omega
  | succ fuel ih =>
    intro n h
    have hd := digitChar_value (n % 10) (Nat.mod_lt _ (by omega))
    simp only [Nat.toDigitsCore]
    split
    · next h0 =>
      have e : decimalValue [Nat.digitChar (n % 10)] = (Nat.digitChar (n % 10)).toNat - 48 := by
        simp [decimalValue]
      rw [e, hd]
      omega
    · next h0 =>
      rw [toDigitsCore_append, decimalValue_append_singleton, ih (n / 10) (by omega), hd]
      omega

/-- A non-negative number is printed as its decimal numeral. -/
theorem decimalValue_toJsString (n : Nat) :
    decimalValue (JsValue.toJsString (JsValue.num (Int.ofNat n))).data = n :=
  decimalValue_toDigitsCore (n + 1) n (Nat.lt_succ_self n)

/-- C6, as stated, fails on the order.  The object written
`{b: 1, 2: 'x', 1: 'y'}` has its properties enumerated `1`, `2`, `b`, so the
query string that `userRevision` sends for it is `1=y&2=x&b=1`, which is not
the insertion-order string `b=1&2=x&1=y`. -/
theorem encodeUrlParams_not_insertion_order :
    objectLiteral [("b", JsValue.num 1), ("2", JsValue.str "x"), ("1", JsValue.str "y")]
      = [("1", JsValue.str "y"), ("2", JsValue.str "x"), ("b", JsValue.num 1)]
    ∧ encodeUrlParams
        (objectLiteral [("b", JsValue.num 1), ("2", JsValue.str "x"), ("1", JsValue.str "y")])
      = "1=y&2=x&b=1"
    ∧ "&".intercalate
        ([("b", JsValue.num 1), ("2", JsValue.str "x"), ("1", JsValue.str "y")].map fieldPair)
      = "b=1&2=x&1=y"
    ∧ encodeUrlParams
        (objectLiteral [("b", JsValue.num 1), ("2", JsValue.str "x"), ("1", JsValue.str "y")])
      ≠ "&".intercalate
        ([("b", JsValue.num 1), ("2", JsValue.str "x"), ("1", JsValue.str "y")].map fieldPair)
    ∧ (auditService.userRevision (Http.mk (fun _ url => url)) specUtil
        (objectLiteral [("b", JsValue.num 1), ("2", JsValue.str "x"), ("1", JsValue.str "y")])
        []).requests
      = ["audited/userRevision?1=y&2=x&b=1"] := by
  decide

/-- C6, amended.  Let `P` be the object built from the properties `entries`
in the order in which they were written, its numbers safe integers.  The query
string of the encoder described by the spec, which `userRevision` sends, is
made of the properties of `P` whose value is neither `undefined` nor the empty
string (exactly those names, each once), each as `key=percentEncodedValue`
with the value encoded as ECMAScript `encodeURIComponent` does (an encoding
that decodes back to the value, a number being its decimal numeral), joined by
`&`, in the property enumeration order of `P`: array indices first in
ascending order, then the other names in the order of their first insertion,
with the value last assigned.  That is the order in which the properties were
written when no name is an array index or repeated; for
`{page: 1, pageSize: 20, name: ''}`, the parameters the list controller is
created with, the string is `page=1&pageSize=20`. -/
theorem encodeUrlParams_enumeration_order {ρ : Type} (http : Http ρ)
    (entries : List (String × JsValue)) (requests : List String)
    (_hsafe : ∀ kv ∈ entries, kv.2.isSafe = true) :
    encodeUrlParams (objectLiteral entries)
      = "&".intercalate ((keptFields (objectLiteral entries)).map fieldPair)
    ∧ ((keptFields (objectLiteral entries)).map Prod.fst).Nodup
    ∧ (∀ k, k ∈ (keptFields (objectLiteral entries)).map Prod.fst
        ↔ ((objectLiteral entries).get k ≠ JsValue.undefined
            ∧ (objectLiteral entries).get k ≠ JsValue.str ""))
    ∧ (∀ k, (objectLiteral entries).lookup k = entries.reverse.lookup k)
    ∧ ((objectLiteral entries).map Prod.fst).Pairwise EnumeratedBefore
    ∧ ((objectLiteral entries).map Prod.fst).filter (fun k => !isArrayIndex k)
      = insertionOrder ((entries.map Prod.fst).filter (fun k => !isArrayIndex k))
    ∧ ((∀ kv ∈ entries, isArrayIndex kv.1 = false) → (entries.map Prod.fst).Nodup →
        objectLiteral entries = entries)
    ∧ (∀ s, decodeURIComponent (encodeURIComponentRef s) = some s)
    ∧ (∀ n : Nat, decimalValue (JsValue.toJsString (JsValue.num (Int.ofNat n))).data = n)
    ∧ (auditService.userRevision http specUtil (objectLiteral entries) requests).requests
      = requests ++ [userRevisionUrl (encodeUrlParams (objectLiteral entries))]
    ∧ objectLiteral
        [("page", JsValue.num 1), ("pageSize", JsValue.num 20), ("name", JsValue.str "")]
      = (RoleAuthAuditListCtrl.create Unit [] 0 ([] : List Unit)).1.self.params
    ∧ encodeUrlParams (objectLiteral
        [("page", JsValue.num 1), ("pageSize", JsValue.num 20), ("name", JsValue.str "")])
      = "page=1&pageSize=20"
    ∧ (auditService.userRevision http specUtil (objectLiteral
          [("page", JsValue.num 1), ("pageSize", JsValue.num 20), ("name", JsValue.str "")])
          requests).requests
      = requests ++ ["audited/userRevision?page=1&pageSize=20"] := by
  have hnd := objectLiteral_nodup entries
  refine ⟨?_, keptKeys_nodup _ hnd, mem_keptKeys_iff _ hnd, objectLiteral_lookup entries,
    objectLiteral_enumerated entries, objectLiteral_filter_nonIndex entries,
    objectLiteral_eq_self entries, ?_, decimalValue_toJsString, ?_, by decide, by decide, ?_⟩
  · rw [encodeUrlParams, encodeFields_eq_map_keptFields]
  · intro s
    rw [← encodeURIComponent_eq_ref]
    exact decodeURIComponent_encodeURIComponent s
  · rw [userRevision_specUtil]; rfl
  · rw [userRevision_specUtil]
    have e : userRevisionUrl (encodeUrlParams (objectLiteral
        [("page", JsValue.num 1), ("pageSize", JsValue.num 20), ("name", JsValue.str "")]))
        = "audited/userRevision?page=1&pageSize=20" := by decide
    simp [httpGet, e]

/-- C6, amended, at concrete inputs: `{b: 1, 2: 'x', 1: 'y', name: ''}` is sent
as `1=y&2=x&b=1`, and `{page: 1, pageSize: 20, name: ''}`, which has no array
index, keeps the order in which it was written. -/
theorem encodeUrlParams_enumeration_order_witness :
    encodeUrlParams (objectLiteral
        [("b", JsValue.num 1), ("2", JsValue.str "x"), ("1", JsValue.str "y"),
          ("name", JsValue.str "")])
      = "1=y&2=x&b=1"
    ∧ (auditService.userRevision (Http.mk (fun _ url => url)) specUtil (objectLiteral
        [("b", JsValue.num 1), ("2", JsValue.str "x"), ("1", JsValue.str "y"),
          ("name", JsValue.str "")]) []).requests
      = ["audited/userRevision?1=y&2=x&b=1"]
    ∧ objectLiteral
        [("page", JsValue.num 1), ("pageSize", JsValue.num 20), ("name", JsValue.str "")]
      = [("page", JsValue.num 1), ("pageSize", JsValue.num 20), ("name", JsValue.str "")] := by
  have h := encodeUrlParams_enumeration_order (Http.mk (fun _ url => url))
    [("b", JsValue.num 1), ("2", JsValue.str "x"), ("1", JsValue.str "y"),
      ("name", JsValue.str "")] [] (by decide)
  have h2 := encodeUrlParams_enumeration_order (Http.mk (fun _ url => url))
    [("page", JsValue.num 1), ("pageSize", JsValue.num 20), ("name", JsValue.str "")] []
    (by decide)
  exact ⟨h.1.trans (by decide), h.2.2.2.2.2.2.2.2.2.1.trans (by decide),
    h2.2.2.2.2.2.2.1 (by decide) (by decide)⟩

/-! ### Transport results are passed on -/

/-- C7. Whenever a call passes its guard, what `userRevision`,
`usersAtRevision` and `userAtRevision` return is the transport's asynchronous
result for the one GET they issued, as the transport gave it (so a failure of
the transport is what the caller gets), no error is thrown, and the request
log grows by exactly that one request: nothing is retried. -/
theorem service_returns_transport_result {ρ : Type} (http : Http ρ) (util : Util)
    (params : QueryParams) (userId revision : JsValue) (requests : List String) :
    (auditService.userRevision http util params requests
        = { result := Except.ok (http.get requests
              (userRevisionUrl (util.encodeUrlParams params))),
            requests := requests ++ [userRevisionUrl (util.encodeUrlParams params)] })
    ∧ ((params.get "revision").toBoolean = true →
        auditService.usersAtRevision http util params requests
          = { result := Except.ok (http.get requests
                ("audited/usersAtRevision?" ++ util.encodeUrlParams params)),
              requests := requests
                ++ ["audited/usersAtRevision?" ++ util.encodeUrlParams params] })
    ∧ (userId.toBoolean = true → revision.toBoolean = true →
        auditService.userAtRevision http util userId revision requests
          = { result := Except.ok (http.get requests
                ("audited/userAtRevision?" ++ util.encodeUrlParams
                  [("userId", userId), ("revision", revision)])),
              requests := requests
                ++ ["audited/userAtRevision?" ++ util.encodeUrlParams
                  [("userId", userId), ("revision", revision)]] }) := by
  refine ⟨?_, ?_, ?_⟩
  · have e : "audited/userRevision" ++ "?" = "audited/userRevision?" := by decide
    by_cases h : util.encodeUrlParams params = ""
    · simp [auditService.userRevision, userRevisionUrl, JsValue.toBoolean, httpGet, h]
    · simp [auditService.userRevision, userRevisionUrl, JsValue.toBoolean, httpGet, h]
      rw [← String.append_assoc, e]
      exact ⟨rfl, rfl⟩
  · intro h
    simp [auditService.usersAtRevision, httpGet, h]
  · intro hu hr
    simp [auditService.userAtRevision, httpGet, hu, hr]

/-- C7 with a transport that answers every request with HTTP 500: each of the
three calls returns that very failure, throws nothing and issues one request. -/
theorem service_returns_transport_result_witness :
    auditService.userRevision http500 (fixedUtil "q=1") [("revision", JsValue.str "7")] []
      = { result := Except.ok (Except.error 500),
          requests := ["audited/userRevision?q=1"] }
    ∧ auditService.usersAtRevision http500 (fixedUtil "q=1") [("revision", JsValue.str "7")] []
      = { result := Except.ok (Except.error 500),
          requests := ["audited/usersAtRevision?q=1"] }
    ∧ auditService.userAtRevision http500 (fixedUtil "q=1") (JsValue.str "u123")
        (JsValue.str "7") []
      = { result := Except.ok (Except.error 500),
          requests := ["audited/userAtRevision?q=1"] } := by
  have h := service_returns_transport_result http500 (fixedUtil "q=1") [("revision", JsValue.str "7")]
    (JsValue.str "u123") (JsValue.str "7") []
  refine ⟨h.1.trans ?_, (h.2.1 (by decide)).trans ?_, (h.2.2 (by decide) (by decide)).trans ?_⟩
  · exact congrArg (Outcome.mk (Except.ok (Except.error 500))) (by decide)
  · exact congrArg (Outcome.mk (Except.ok (Except.error 500))) (by decide)
  · exact congrArg (Outcome.mk (Except.ok (Except.error 500))) (by decide)

/-! ### The role audit controllers -/

/-- C8, what the code does instead: for every key and every value, a string or
an object, `getValue` returns `undefined`, so it never returns a string; for
instance `getValue('name', 'admin')` and `getValue('auth', {menu: 'read'})`
are both `undefined`. -/
theorem getValue_returns_undefined (k : String) (v : DetailValue) :
    RoleAuthAuditDetailCtrl.getValue k v = JsValue.undefined
    ∧ (∀ s, RoleAuthAuditDetailCtrl.getValue k v ≠ JsValue.str s)
    ∧ RoleAuthAuditDetailCtrl.getValue "name" (DetailValue.scalar (JsValue.str "admin"))
      = JsValue.undefined
    ∧ RoleAuthAuditDetailCtrl.getValue "auth"
        (DetailValue.object [("menu", JsValue.str "read")]) = JsValue.undefined := by
  refine ⟨rfl, ?_, rfl, rfl⟩
  intro s e
  simp [RoleAuthAuditDetailCtrl.getValue] at e

/-- C9. `query()` passes the controller's current `params` to
`service.roleRevision` exactly once and changes no field of the controller at
that moment.  When the request later succeeds with data `d`, the controller of
that moment gets `pager = d` while its `params`, `roleMap` and `typeMap` stay
as they are and no further request is made; when the request fails, nothing
changes at all, so `pager` keeps its value. -/
theorem query_rebinds_pager (ε : Type) {δ : Type} (w : ListWorld δ) :
    (RoleAuthAuditListCtrl.query ε w).1.roleRevisionCalls
      = w.roleRevisionCalls ++ [w.self.params]
    ∧ (RoleAuthAuditListCtrl.query ε w).1.self = w.self
    ∧ (∀ (d : δ) (later : ListWorld δ),
        ((RoleAuthAuditListCtrl.query ε w).2 (Except.ok d) later).self.pager = some d
        ∧ ((RoleAuthAuditListCtrl.query ε w).2 (Except.ok d) later).self.params
          = later.self.params
        ∧ ((RoleAuthAuditListCtrl.query ε w).2 (Except.ok d) later).self.roleMap
          = later.self.roleMap
        ∧ ((RoleAuthAuditListCtrl.query ε w).2 (Except.ok d) later).self.typeMap
          = later.self.typeMap
        ∧ ((RoleAuthAuditListCtrl.query ε w).2 (Except.ok d) later).roleRevisionCalls
          = later.roleRevisionCalls)
    ∧ (∀ (e : ε) (later : ListWorld δ),
        (RoleAuthAuditListCtrl.query ε w).2 (Except.error e) later = later) := by
  refine ⟨rfl, rfl, ?_, ?_⟩
  · intro d later
    exact ⟨rfl, rfl, rfl, rfl, rfl⟩
  · intro e later
    rfl

/-- C10. `reset()` sets `params` to `{page: 1, pageSize: 20, name: ''}`, the
value the controller is created with, leaves `pager`, `roleMap` and `typeMap`
as they are, makes no call to `service.roleRevision`, and resetting twice
gives the same state as resetting once. -/
theorem reset_restores_default_params (ε : Type) {δ : Type} (w : ListWorld δ)
    (calls : List QueryParams) (auth : Nat) (console : List δ) :
    (RoleAuthAuditListCtrl.reset w).self.params
      = [("page", JsValue.num 1), ("pageSize", JsValue.num 20), ("name", JsValue.str "")]
    ∧ (RoleAuthAuditListCtrl.reset w).self.params
      = (RoleAuthAuditListCtrl.create ε calls auth console).1.self.params
    ∧ (RoleAuthAuditListCtrl.reset w).self.pager = w.self.pager
    ∧ (RoleAuthAuditListCtrl.reset w).self.roleMap = w.self.roleMap
    ∧ (RoleAuthAuditListCtrl.reset w).self.typeMap = w.self.typeMap
    ∧ (RoleAuthAuditListCtrl.reset w).roleRevisionCalls = w.roleRevisionCalls
    ∧ RoleAuthAuditListCtrl.reset (RoleAuthAuditListCtrl.reset w)
      = RoleAuthAuditListCtrl.reset w := by
  exact ⟨rfl, rfl, rfl, rfl, rfl, rfl, rfl⟩

end WebBuilding
